import Mathlib

/-!
# Verification of the `my-redis` core against its specification

Shallow embedding of the repository's core components:

* `src/frame.rs` — the frame codec (`Frame`, `Frame::check`, `Frame::parse`,
  `Frame::serialize`, and the cursor helpers `get_u8`, `peek_u8`, `skip`,
  `get_line`, `get_decimal`);
* `src/connection.rs` — `Connection::parse_frame` (buffer-advance logic);
* `src/db.rs` — the store (`State`, `Db::set`, `Db::get`, `Db::delete`,
  `Shared::purge_expired_keys`);
* `src/parse.rs`, `src/cmd/set.rs`, `src/cmd/mod.rs` — the command layer.

Rust byte buffers (`&[u8]`, `Bytes`, `String` payloads) are modelled as
`List Nat` of byte values; `u64`/`usize` values as `Nat` with explicit range
conditions where overflow matters; `Instant` as a `Nat` timestamp and
`Duration` as a `Nat` number of milliseconds.  Fallible Rust code returns
`Except`; a Rust panic is modelled as the distinguished error `FErr.panic`.
-/

namespace MyRedis

/-- A byte buffer (`&[u8]` / `Bytes` / the bytes of a Rust `String`). -/
abbrev Buf := List Nat

/-- Outcomes of a codec operation: `frame::Error::Incomplete`,
`frame::Error::Other` (protocol error), or a Rust panic (unwinding). -/
inductive FErr where
  | incomplete
  | protocol
  | panic
deriving DecidableEq, Repr

/-! ## Cursor helpers from `src/frame.rs`

A `Cursor<&[u8]>` is modelled as the pair of the underlying buffer `buf`
and the current position `pos`.  Each helper returns its result together
with the new position.  The `bytes` crate's `Buf` impl for `Cursor`
saturates: `remaining` is `0` whenever `pos ≥ buf.len()`. -/

/-- `remaining()` of the cursor. -/
def remaining (buf : Buf) (pos : Nat) : Nat := buf.length - pos

/-- `get_u8` (frame.rs line 285): error `Incomplete` when nothing remains,
otherwise return the byte at `pos` and advance by one. -/
def get_u8 (buf : Buf) (pos : Nat) : Except FErr (Nat × Nat) :=
  if pos < buf.length then .ok (buf.getD pos 0, pos + 1) else .error .incomplete

/-- `peek_u8` (frame.rs line 265): like `get_u8` but does not advance. -/
def peek_u8 (buf : Buf) (pos : Nat) : Except FErr Nat :=
  if pos < buf.length then .ok (buf.getD pos 0) else .error .incomplete

/-- `skip` (frame.rs line 245): error `Incomplete` when fewer than `n`
bytes remain, otherwise advance by `n`. -/
def skip (buf : Buf) (pos n : Nat) : Except FErr Nat :=
  if remaining buf pos < n then .error .incomplete else .ok (pos + n)

/-- The scan loop of `get_line` (frame.rs lines 307-312):
`for i in start..end { if src.get_ref()[i] == b'\r' && src.get_ref()[i+1] == b'\n' { ... } }`,
expressed over the list of bytes from the scan start onward.  Returns the
offset of the first `\r\n`, `none` when there is none.  When a `\r` sits at
the very last index the source indexes `src.get_ref()[i + 1]` out of
bounds, a Rust panic. -/
def scanCRLF : Buf → Except FErr (Option Nat)
  | [] => .ok none
  | x :: rest =>
    if x = 13 then
      match rest with
      | [] => .error .panic
      | y :: _ =>
        if y = 10 then .ok (some 0)
        else (scanCRLF rest).map (fun o => o.map (· + 1))
    else (scanCRLF rest).map (fun o => o.map (· + 1))

/-- `get_line` (frame.rs lines 304-316).  NOTE (faithful to the source):
when no `\r\n` terminator is found the loop leaves `end` at the buffer
length, so the function RETURNS the remaining bytes as the line and sets
the position to `buf.len() + 2` — it never reports `Incomplete`.  When the
initial position is beyond the buffer the slice `&src.get_ref()[start..end]`
would panic (this never happens from the call sites in the source). -/
def get_line (buf : Buf) (pos : Nat) : Except FErr (Buf × Nat) :=
  if buf.length < pos then .error .panic
  else
    match scanCRLF (buf.drop pos) with
    | .error e => .error e
    | .ok (some k) => .ok ((buf.drop pos).take k, pos + k + 2)
    | .ok none => .ok (buf.drop pos, buf.length + 2)

/-- Is `d` an ASCII decimal digit? -/
def isDigit (d : Nat) : Bool := 48 ≤ d && d ≤ 57

/-- Numeric value of a string of ASCII digits, most significant first. -/
def digitsVal (l : Buf) : Nat := l.foldl (fun a d => a * 10 + (d - 48)) 0

/-- `u64::MAX`. -/
def u64Max : Nat := 2 ^ 64 - 1

/-- Rust `str::parse::<u64>`: an optional leading `+`, then one or more
ASCII digits, value at most `u64::MAX`.  (A string accepted here is in
particular valid UTF-8, so the preceding `String::from_utf8` cannot be the
failing step when the parse succeeds.) -/
def parseU64 (line : Buf) : Option Nat :=
  let body := if line.head? = some 43 then line.tail else line
  if body ≠ [] && body.all isDigit && digitsVal body ≤ u64Max then
    some (digitsVal body)
  else none

/-- Does the byte string contain the two-byte sequence `\r\n`?  (Such a
payload cannot survive a round trip: `get_line` stops at the first
`\r\n`.) -/
def hasCRLF : Buf → Bool
  | [] => false
  | _ :: [] => false
  | x :: y :: rest => (x == 13 && y == 10) || hasCRLF (y :: rest)

/-- `get_decimal` (frame.rs lines 330-343): `get_line`, UTF-8 decode, then
`parse::<u64>`; a decode or parse failure is `Error::Other` (protocol).
`get_line` only ever fails by panicking, so the source's
`else Err(Error::Incomplete)` arm is unreachable and a panic propagates. -/
def get_decimal (buf : Buf) (pos : Nat) : Except FErr (Nat × Nat) :=
  match get_line buf pos with
  | .error e => .error e
  | .ok (line, p) =>
    match parseU64 line with
    | some n => .ok (n, p)
    | none => .error .protocol

/-! ## UTF-8 validation

`String::from_utf8` / `str::from_utf8` succeed exactly on well-formed UTF-8;
this is the standard byte-level acceptance condition. -/

/-- Is `c` a UTF-8 continuation byte (`0x80..0xBF`)? -/
def isCont (c : Nat) : Bool := 128 ≤ c && c < 192

/-- Byte-level well-formedness of UTF-8, as checked by Rust's
`String::from_utf8`. -/
def validUtf8 : Buf → Bool
  | [] => true
  | b :: rest =>
    if b < 128 then validUtf8 rest
    else if b < 194 then false
    else if b < 224 then
      match rest with
      | c1 :: r => isCont c1 && validUtf8 r
      | [] => false
    else if b < 240 then
      match rest with
      | c1 :: c2 :: r =>
        (if b = 224 then decide (160 ≤ c1 && c1 < 192)
         else if b = 237 then decide (128 ≤ c1 && c1 < 160)
         else isCont c1) && isCont c2 && validUtf8 r
      | _ => false
    else if b < 245 then
      match rest with
      | c1 :: c2 :: c3 :: r =>
        (if b = 240 then decide (144 ≤ c1 && c1 < 192)
         else if b = 244 then decide (128 ≤ c1 && c1 < 144)
         else isCont c1) && isCont c2 && isCont c3 && validUtf8 r
      | _ => false
    else false

/-! ## The `Frame` type (frame.rs lines 19-28) -/

/-- A frame in the Redis protocol.  `Simple`/`Error` carry the bytes of a
Rust `String` (valid UTF-8 by that type's invariant), `Integer` a `u64`,
`Bulk` raw `Bytes`. -/
inductive Frame where
  | Simple (s : Buf)
  | Error (s : Buf)
  | Integer (i : Nat)
  | Bulk (b : Buf)
  | Null
  | Array (elems : List Frame)

/-! ## `Frame::check` (frame.rs lines 54-84) and `Frame::parse` (lines 87-129)

Both functions recurse into the elements of an array.  In the source the
recursion terminates because every call strictly advances the cursor; the
embedding makes this explicit with a budget `fuel` that is spent only when
descending into an array's element list.  Each such descent consumes an
array header (`*`, digits, `\r\n`) at a strictly larger position below the
buffer length, so a buffer of `n` bytes can nest fewer than `n + 2` arrays;
the entry points supply `fuel = buf.length + 2`, making the exhaustion arm
unreachable. -/

/-- The `for _ in 0..len { Frame::check(src)?; }` loop of the array arm,
abstracted over the recursive call. -/
def checkMany (step : Nat → Except FErr Nat) : Nat → Nat → Except FErr Nat
  | 0, pos => .ok pos
  | count + 1, pos =>
    match step pos with
    | .error e => .error e
    | .ok p => checkMany step count p

/-- Body of `Frame::check`: returns the final cursor position. -/
def checkFuel : Nat → Buf → Nat → Except FErr Nat
  | 0, _, _ => .error .incomplete
  | fuel + 1, buf, pos =>
    match get_u8 buf pos with
    | .error e => .error e
    | .ok (b, p1) =>
      if b = 43 then
        match get_line buf p1 with
        | .error e => .error e
        | .ok (_, p2) => .ok p2
      else if b = 45 then
        match get_line buf p1 with
        | .error e => .error e
        | .ok (_, p2) => .ok p2
      else if b = 58 then
        match get_decimal buf p1 with
        | .error e => .error e
        | .ok (_, p2) => .ok p2
      else if b = 36 then
        match peek_u8 buf p1 with
        | .error e => .error e
        | .ok c =>
          if c = 45 then
            skip buf p1 4
          else
            match get_decimal buf p1 with
            | .error e => .error e
            | .ok (len, p2) => skip buf p2 (len + 2)
      else if b = 42 then
        match get_decimal buf p1 with
        | .error e => .error e
        | .ok (len, p2) => checkMany (checkFuel fuel buf) len p2
      else .error .protocol

/-- `Frame::check`: walk the grammar without materializing values; on
success the returned value is the final cursor position. -/
def Frame.check (buf : Buf) (pos : Nat) : Except FErr Nat :=
  checkFuel (buf.length + 2) buf pos

/-- The `for _ in 0..len { frames.push(Frame::parse(src)?); }` loop of the
array arm, abstracted over the recursive call. -/
def parseMany (step : Nat → Except FErr (Frame × Nat)) :
    Nat → Nat → Except FErr (List Frame × Nat)
  | 0, pos => .ok ([], pos)
  | count + 1, pos =>
    match step pos with
    | .error e => .error e
    | .ok (f, p) =>
      match parseMany step count p with
      | .error e => .error e
      | .ok (fs, p2) => .ok (f :: fs, p2)

/-- Body of `Frame::parse`: returns the frame and the final position. -/
def parseFuel : Nat → Buf → Nat → Except FErr (Frame × Nat)
  | 0, _, _ => .error .incomplete
  | fuel + 1, buf, pos =>
    match get_u8 buf pos with
    | .error e => .error e
    | .ok (b, p1) =>
      if b = 43 then
        match get_line buf p1 with
        | .error e => .error e
        | .ok (line, p2) =>
          if validUtf8 line then .ok (.Simple line, p2) else .error .protocol
      else if b = 45 then
        match get_line buf p1 with
        | .error e => .error e
        | .ok (line, p2) =>
          if validUtf8 line then .ok (.Error line, p2) else .error .protocol
      else if b = 58 then
        match get_decimal buf p1 with
        | .error e => .error e
        | .ok (n, p2) => .ok (.Integer n, p2)
      else if b = 36 then
        match peek_u8 buf p1 with
        | .error e => .error e
        | .ok c =>
          if c = 45 then
            match get_line buf p1 with
            | .error e => .error e
            | .ok (line, p2) =>
              if line = [45, 49] then .ok (.Null, p2) else .error .protocol
          else
            match get_decimal buf p1 with
            | .error e => .error e
            | .ok (n, p2) =>
              if remaining buf p2 < n then .error .panic
              else
                match skip buf (p2 + n) 2 with
                | .error e => .error e
                | .ok p3 => .ok (.Bulk ((buf.drop p2).take n), p3)
      else if b = 42 then
        match get_decimal buf p1 with
        | .error e => .error e
        | .ok (n, p2) =>
          match parseMany (parseFuel fuel buf) n p2 with
          | .error e => .error e
          | .ok (fs, p3) => .ok (.Array fs, p3)
      else .error .protocol

/-- `Frame::parse`: the same walk as `check`, materializing the frame.
`String::from_utf8` failures on simple/error lines are protocol errors;
`copy_to_slice` on a short buffer is a panic.  Returns the frame together
with the final cursor position. -/
def Frame.parse (buf : Buf) (pos : Nat) : Except FErr (Frame × Nat) :=
  parseFuel (buf.length + 2) buf pos

/-! ## `Frame::serialize` (frame.rs lines 41-51) -/

/-- Decimal ASCII digits of `n` (Rust's `format!("{}", n)`), driven by an
always-sufficient structural budget (a number below `10 ^ fuel` has at
most `fuel` digits). -/
def natDigitsAux : Nat → Nat → Buf
  | 0, _ => []
  | fuel + 1, n => if n < 10 then [48 + n] else natDigitsAux fuel (n / 10) ++ [48 + n % 10]

/-- Decimal ASCII representation of `n`. -/
def natToDigits (n : Nat) : Buf := natDigitsAux (n + 1) n

/-- `Frame::serialize`, as the bytes of the returned `String`; `none`
models a panic.  The source panics on `Frame::Array` (the `_` arm is
`panic!("Not implemented")`, marked `TODO`), and `String::from_utf8(...).unwrap()`
in the `Bulk` arm panics when the payload is not valid UTF-8. -/
def Frame.serialize : Frame → Option Buf
  | .Simple s => some (43 :: (s ++ [13, 10]))
  | .Bulk b =>
    if validUtf8 b then
      some (36 :: (natToDigits b.length ++ [13, 10] ++ b ++ [13, 10]))
    else none
  | .Error s => some (45 :: (s ++ [13, 10]))
  | .Null => some [36, 45, 49, 13, 10]
  | .Integer i => some (58 :: (natToDigits i ++ [13, 10]))
  | .Array _ => none

/-! ## `Connection::parse_frame` (connection.rs lines 43-57) -/

/-- `Connection::parse_frame`: run `Frame::check` from position 0; if it
succeeds with final position `len`, re-parse from position 0 and advance
the buffer by `len` (`BytesMut::advance` panics when `len` exceeds the
buffer length).  `Incomplete` becomes `ok none` ("read more bytes"). -/
def Connection.parse_frame (buf : Buf) : Except FErr (Option (Frame × Buf)) :=
  match Frame.check buf 0 with
  | .ok len =>
    match Frame.parse buf 0 with
    | .error e => .error e
    | .ok (f, _) =>
      if buf.length < len then .error .panic
      else .ok (some (f, buf.drop len))
  | .error .incomplete => .ok none
  | .error e => .error e

/-! ## The store (`src/db.rs`)

`Instant` is a `Nat` timestamp, `Duration` a `Nat` in the same unit, and
`Instant::now()` is passed explicitly as `now`.  The `HashMap` is an
association list with unique keys, the `BTreeSet` a strictly sorted list,
so its head is `iter().next()`, the minimum element. -/

/-- Strict lexicographic byte order: Rust `String`'s `Ord` compares the
UTF-8 bytes lexicographically. -/
def bufLt : Buf → Buf → Bool
  | [], [] => false
  | [], _ :: _ => true
  | _ :: _, [] => false
  | x :: xs, y :: ys => x < y || (x = y && bufLt xs ys)

/-- The order of `BTreeSet<(Instant, String)>` elements: deadline first,
then key (db.rs line 38). -/
def pairLt (x y : Nat × Buf) : Bool := x.1 < y.1 || (x.1 = y.1 && bufLt x.2 y.2)

/-- `Entry` (db.rs lines 42-49). -/
structure Entry where
  data : Buf
  expires_at : Option Nat
deriving DecidableEq, Repr

/-- `State` (db.rs lines 31-39). -/
structure State where
  entries : List (Buf × Entry)
  expirations : List (Nat × Buf)
deriving DecidableEq, Repr

/-- The state a fresh `Db::new` starts from (db.rs lines 63-74). -/
def State.empty : State := ⟨[], []⟩

/-- `HashMap::get`. -/
def lookupEntry (es : List (Buf × Entry)) (k : Buf) : Option Entry :=
  (es.find? (fun kv => kv.1 == k)).map (·.2)

/-- `HashMap::insert` over the association list: replace the binding of
`k` in place, or append it. -/
def insertEntry : List (Buf × Entry) → Buf → Entry → List (Buf × Entry)
  | [], k, e => [(k, e)]
  | (k', e') :: rest, k, e =>
    if k' == k then (k, e) :: rest else (k', e') :: insertEntry rest k e

/-- `HashMap::remove`. -/
def removeEntry : List (Buf × Entry) → Buf → List (Buf × Entry)
  | [], _ => []
  | (k', e') :: rest, k => if k' == k then rest else (k', e') :: removeEntry rest k

/-- `BTreeSet::insert`: ordered insertion, no duplication. -/
def insertExp : List (Nat × Buf) → (Nat × Buf) → List (Nat × Buf)
  | [], x => [x]
  | y :: ys, x =>
    if pairLt x y then x :: y :: ys
    else if x == y then y :: ys
    else y :: insertExp ys x

/-- `BTreeSet::remove`. -/
def removeExp (l : List (Nat × Buf)) (x : Nat × Buf) : List (Nat × Buf) :=
  l.filter (fun y => y != x)

/-- `State::next_expiration` (db.rs lines 270-274):
`self.expirations.iter().next().map(|x| x.0)`, the minimum deadline. -/
def State.next_expiration (s : State) : Option Nat :=
  s.expirations.head?.map (·.1)

/-- Result of `Db::set`: the mutated state, and whether
`bg_task_notify.notify_one()` is called.  The source drops the lock first
and then notifies (db.rs lines 107-114); the flag records that the
notification happens, after the critical section. -/
structure SetResult where
  state : State
  notify : Bool
deriving DecidableEq, Repr

/-- `Db::set` (db.rs lines 76-115).  The `notify` flag is computed inside
`expire.map`, BEFORE the map and the index are touched, from the
pre-mutation `next_expiration`; then the entry is inserted, a previous
entry's index pair is removed, and the new pair (if any) is inserted. -/
def Db.set (s : State) (key value : Buf) (expire : Option Nat) (now : Nat) : SetResult :=
  let expires_at := expire.map (fun d => now + d)
  let notify :=
    match expire with
    | none => false
    | some d => (s.next_expiration.map (fun t => decide (t > now + d))).getD true
  let prev := lookupEntry s.entries key
  let entries1 := insertEntry s.entries key ⟨value, expires_at⟩
  let exps1 :=
    match prev with
    | some pe =>
      match pe.expires_at with
      | some pw => removeExp s.expirations (pw, key)
      | none => s.expirations
    | none => s.expirations
  let exps2 :=
    match expires_at with
    | some w => insertExp exps1 (w, key)
    | none => exps1
  ⟨⟨entries1, exps2⟩, notify⟩

/-- `Db::get` (db.rs lines 117-122): look the key up in the map and clone
its data — the deadline is never consulted.  `get` takes `&self` and
mutates nothing; the (unchanged) state is returned so that this is a
statable fact. -/
def Db.get (s : State) (key : Buf) : Option Buf × State :=
  ((lookupEntry s.entries key).map (·.data), s)

/-- `Db::delete` (db.rs lines 206-215, the test-facing helper): remove the
map entry and, when it had a deadline, its index pair. -/
def Db.delete (s : State) (key : Buf) : Option Buf × State :=
  match lookupEntry s.entries key with
  | none => (none, s)
  | some e =>
    let exps1 :=
      match e.expires_at with
      | some w => removeExp s.expirations (w, key)
      | none => s.expirations
    (some e.data, ⟨removeEntry s.entries key, exps1⟩)

/-- `Shared::purge_expired_keys` (db.rs lines 170-191): ONE pass.  Look at
the minimum of the index; a still-future deadline is returned with the
state untouched; otherwise that single entry is removed from both the map
and the index and the new minimum deadline (if any) is returned — unlike
mini-redis, the source does not loop over all expired entries here. -/
def Shared.purge_expired_keys (s : State) (now : Nat) : Option Nat × State :=
  match s.expirations.head? with
  | none => (none, s)
  | some (w, key) =>
    if now < w then (some w, s)
    else
      let entries1 := removeEntry s.entries key
      let exps1 := removeExp s.expirations (w, key)
      (exps1.head?.map (·.1), ⟨entries1, exps1⟩)

/-- The back-to-back passes of the background task (db.rs lines 255-268):
after a pass returns `Some(when)` the task sleeps with
`time::sleep_until(when)`; when `when ≤ now` that sleep returns at once
and the next pass runs immediately.  This iterates single passes while the
minimum indexed deadline is `≤ now`; each such pass removes one index
entry, so the index length bounds the number of iterations. -/
def reaperDrainFuel : Nat → State → Nat → State
  | 0, s, _ => s
  | fuel + 1, s, now =>
    match s.expirations.head? with
    | none => s
    | some (w, _) =>
      if w ≤ now then reaperDrainFuel fuel (Shared.purge_expired_keys s now).2 now
      else s

/-- The state after all the purge passes the reaper performs back-to-back
at time `now`. -/
def reaperDrain (s : State) (now : Nat) : State :=
  reaperDrainFuel s.expirations.length s now

/-! ### Well-formedness invariant of a store state -/

/-- Reachable store states are well-formed: map keys are unique, the
index is strictly sorted (hence duplicate-free with the minimum at its
head), and the index holds exactly the (deadline, key) pairs of the map
entries that carry a deadline (spec §3, ExpirationIndex invariant). -/
def Inv (s : State) : Prop :=
  s.entries.Pairwise (fun a b => a.1 ≠ b.1) ∧
  s.expirations.Pairwise (fun x y => pairLt x y = true) ∧
  ∀ w k, (w, k) ∈ s.expirations ↔
    ∃ e, lookupEntry s.entries k = some e ∧ e.expires_at = some w

/-- A mutation sequence against the store: `set` (also overwrite) and
`delete`. -/
inductive Op where
  | set (key value : Buf) (expire : Option Nat) (now : Nat)
  | delete (key : Buf)

/-- Apply one operation. -/
def applyOp (s : State) : Op → State
  | .set k v e now => (Db.set s k v e now).state
  | .delete k => (Db.delete s k).2

/-- Run a sequence of operations from the fresh store. -/
def applyOps (ops : List Op) : State := ops.foldl applyOp State.empty

/-! ## The command layer (`src/parse.rs`, `src/cmd/`) -/

/-- `ParseError` (parse.rs lines 12-20): `EndOfStream` vs all other
errors (whose message text is not modelled). -/
inductive ParseError where
  | endOfStream
  | other
deriving DecidableEq, Repr

/-- `Parse::new` (parse.rs lines 23-31): requires an array frame; the
`blocks` iterator is the list of its elements. -/
def Parse.new : Frame → Except ParseError (List Frame)
  | .Array a => .ok a
  | _ => .error .other

/-- `Parse::next` (parse.rs lines 34-36). -/
def Parse.next : List Frame → Except ParseError (Frame × List Frame)
  | [] => .error .endOfStream
  | f :: rest => .ok (f, rest)

/-- `Parse::next_string` (parse.rs lines 39-47): a `Simple` string is
returned as is, a `Bulk` payload must decode as UTF-8, any other frame is
a protocol error. -/
def Parse.next_string (blocks : List Frame) : Except ParseError (Buf × List Frame) :=
  match Parse.next blocks with
  | .error e => .error e
  | .ok (f, rest) =>
    match f with
    | .Simple s => .ok (s, rest)
    | .Bulk b => if validUtf8 b then .ok (b, rest) else .error .other
    | _ => .error .other

/-- Rust `str::parse::<i64>`: an optional sign, then ASCII digits, within
the `i64` range. -/
def parseI64 (line : Buf) : Option Int :=
  if line.head? = some 45 then
    if line.tail ≠ [] && line.tail.all isDigit && digitsVal line.tail ≤ 2 ^ 63 then
      some (-(digitsVal line.tail : Int))
    else none
  else
    let body := if line.head? = some 43 then line.tail else line
    if body ≠ [] && body.all isDigit && digitsVal body ≤ 2 ^ 63 - 1 then
      some (digitsVal body)
    else none

/-- `Parse::next_int` (parse.rs lines 58-61). -/
def Parse.next_int (blocks : List Frame) : Except ParseError (Int × List Frame) :=
  match Parse.next_string blocks with
  | .error e => .error e
  | .ok (s, rest) =>
    match parseI64 s with
    | some n => .ok (n, rest)
    | none => .error .other

/-- `Set` (cmd/set.rs lines 8-12); the expiry as a `Duration` in
milliseconds. -/
structure SetCmd where
  key : Buf
  value : Buf
  expire : Option Nat
deriving DecidableEq, Repr

/-- ASCII upper-casing.  `str::to_uppercase` is Unicode-aware, but it is
only compared against `"EX"`/`"PX"` and no non-ASCII character
upper-cases to an ASCII letter, so the ASCII mapping decides those
comparisons faithfully. -/
def toUpperAscii (s : Buf) : Buf :=
  s.map (fun c => if 97 ≤ c ∧ c ≤ 122 then c - 32 else c)

/-- ASCII lower-casing (see `toUpperAscii`; compared against
`"get"`/`"set"`/`"ping"`). -/
def toLowerAscii (s : Buf) : Buf :=
  s.map (fun c => if 65 ≤ c ∧ c ≤ 90 then c + 32 else c)

/-- `Set::from_parse` (cmd/set.rs lines 15-33): `key`, `value`, then an
optional expiry block — `EX` (case-insensitive) with a number of seconds
or `PX` with a number of milliseconds; end-of-stream after the value means
no expiry; any other third block, and any failure to parse the number,
is an error.  The source hands the parsed `i64` to
`Duration::from_secs`/`from_millis` (whose parameter is `u64`); the
embedding takes `toNat` of it. -/
def Set.from_parse (blocks : List Frame) : Except ParseError (SetCmd × List Frame) :=
  match Parse.next_string blocks with
  | .error e => .error e
  | .ok (key, b1) =>
    match Parse.next_string b1 with
    | .error e => .error e
    | .ok (value, b2) =>
      match Parse.next_string b2 with
      | .ok (s, b3) =>
        if toUpperAscii s = [69, 88] then
          match Parse.next_int b3 with
          | .error e => .error e
          | .ok (secs, b4) => .ok (⟨key, value, some (1000 * secs.toNat)⟩, b4)
        else if toUpperAscii s = [80, 88] then
          match Parse.next_int b3 with
          | .error e => .error e
          | .ok (ms, b4) => .ok (⟨key, value, some ms.toNat⟩, b4)
        else .error .other
      | .error .endOfStream => .ok (⟨key, value, none⟩, b2)
      | .error .other => .error .other

/-- `Get::from_parse` (cmd/get.rs lines 11-14): a single key. -/
def Get.from_parse (blocks : List Frame) : Except ParseError (Buf × List Frame) :=
  Parse.next_string blocks

/-- `Command` (cmd/mod.rs lines 15-20). -/
inductive Command where
  | get (key : Buf)
  | set (cmd : SetCmd)
  | ping
  | unknown (name : Buf)
deriving DecidableEq, Repr

/-- Modelled from the spec: `Parse::finish` is called by
`Command::from_frame` (cmd/mod.rs line 36) but is defined nowhere in the
sources.  Per spec §4.4, "any leftover unconsumed elements after a
command's parser returns is a protocol error (malformed command arity)". -/
def Parse.finish : List Frame → Except ParseError Unit
  | [] => .ok ()
  | _ :: _ => .error .other

/-- `Command::from_frame` (cmd/mod.rs lines 23-40): the frame must be an
array, its first element (lower-cased) selects the command, that command
parses the rest, leftovers are rejected by `finish`. -/
def Command.from_frame (f : Frame) : Except ParseError Command :=
  match Parse.new f with
  | .error e => .error e
  | .ok blocks =>
    match Parse.next_string blocks with
    | .error e => .error e
    | .ok (name, b1) =>
      let cname := toLowerAscii name
      let parsed : Except ParseError (Command × List Frame) :=
        if cname = [103, 101, 116] then
          match Get.from_parse b1 with
          | .error e => .error e
          | .ok (key, b2) => .ok (Command.get key, b2)
        else if cname = [115, 101, 116] then
          match Set.from_parse b1 with
          | .error e => .error e
          | .ok (c, b2) => .ok (Command.set c, b2)
        else if cname = [112, 105, 110, 103] then .ok (Command.ping, b1)
        else .ok (Command.unknown cname, b1)
      match parsed with
      | .error e => .error e
      | .ok (c, b2) =>
        match Parse.finish b2 with
        | .error e => .error e
        | .ok _ => .ok c

/-- `Command::apply` (cmd/mod.rs lines 43-51 together with each command's
`apply`): the reply frame written back and the resulting store state.
`GET` replies the bulk value or null (cmd/get.rs), `SET` mutates and
replies `+OK` (cmd/set.rs), `PING` replies `+PONG` (cmd/ping.rs), an
unknown command replies `-ERR unknown command '<name>'` (cmd/unknown.rs). -/
def Command.apply (c : Command) (s : State) (now : Nat) : Frame × State :=
  match c with
  | .get k =>
    (match (Db.get s k).1 with
     | some v => Frame.Bulk v
     | none => Frame.Null, s)
  | .set c => (Frame.Simple [79, 75], (Db.set s c.key c.value c.expire now).state)
  | .ping => (Frame.Simple [80, 79, 78, 71], s)
  | .unknown name =>
    (Frame.Error ([69, 82, 82, 32, 117, 110, 107, 110, 111, 119, 110, 32, 99,
      111, 109, 109, 97, 110, 100, 32, 39] ++ name ++ [39]), s)

/-- Is the frame an `Error` reply? -/
def Frame.isError : Frame → Bool
  | .Error _ => true
  | _ => false

/-- Modelled from the spec: the per-connection request loop that pairs
`Command::from_frame` with `Command::apply` is absent from the sources
(`src/server.rs` is an older iteration that does not use the `cmd`
module).  Per spec §7, a command-level error is "recovered locally,
reported to the client as an Error frame, connection stays open"; the
reply text is not fixed by the spec and is not modelled.  Returns the
reply frame, the resulting state, and whether the connection remains
usable. -/
def handleCommand (f : Frame) (s : State) (now : Nat) : Frame × State × Bool :=
  match Command.from_frame f with
  | .error _ => (Frame.Error [], s, true)
  | .ok c =>
    let (reply, s') := Command.apply c s now
    (reply, s', true)

/-- The premises under which the source's serialization round-trips a
frame: `Simple`/`Error` text must contain no `\r\n` (`get_line` stops at
the first one) and is valid UTF-8 (Rust `String` invariant, consulted by
`parse`); an `Integer` is a `u64`; `Bulk` bytes must be valid UTF-8
(otherwise `serialize`'s `String::from_utf8(...).unwrap()` panics) with a
`u64` length; no `Array` frame serializes at all (the `serialize` arm is
a `panic!`). -/
def RoundTrips : Frame → Prop
  | .Simple s => hasCRLF s = false ∧ validUtf8 s = true
  | .Error s => hasCRLF s = false ∧ validUtf8 s = true
  | .Integer i => i ≤ u64Max
  | .Bulk b => validUtf8 b = true ∧ b.length ≤ u64Max
  | .Null => True
  | .Array _ => False

/-! ### Position facts about the cursor helpers -/

theorem get_u8_pos {buf : Buf} {pos b p : Nat} (h : get_u8 buf pos = .ok (b, p)) :
    p = pos + 1 ∧ pos < buf.length := by
  unfold get_u8 at h
  split at h
  · cases h; exact ⟨rfl, by assumption⟩
  · exact Except.noConfusion h

theorem skip_pos {buf : Buf} {pos n p : Nat} (h : skip buf pos n = .ok p) :
    p = pos + n ∧ n ≤ buf.length - pos := by
  unfold skip remaining at h
  split at h
  · exact Except.noConfusion h
  · cases h; omega

theorem get_line_pos {buf : Buf} {pos : Nat} {l : Buf} {p : Nat}
    (h : get_line buf pos = .ok (l, p)) : pos + 2 ≤ p := by
  unfold get_line at h
  by_cases hpos : buf.length < pos
  · rw [if_pos hpos] at h; exact Except.noConfusion h
  · rw [if_neg hpos] at h
    cases hs : scanCRLF (buf.drop pos) with
    | error e => rw [hs] at h; exact Except.noConfusion h
    | ok oe =>
      cases oe with
      | some k => rw [hs] at h; cases h; omega
      | none => rw [hs] at h; cases h; omega

theorem get_decimal_pos {buf : Buf} {pos n p : Nat}
    (h : get_decimal buf pos = .ok (n, p)) : pos + 2 ≤ p := by
  unfold get_decimal at h
  cases hl : get_line buf pos with
  | error e => rw [hl] at h; exact Except.noConfusion h
  | ok lp =>
    obtain ⟨line, p'⟩ := lp
    rw [hl] at h
    dsimp only at h
    cases hp : parseU64 line with
    | none => rw [hp] at h; exact Except.noConfusion h
    | some m => rw [hp] at h; cases h; exact get_line_pos hl


/-! ## Order facts about `bufLt` and `pairLt` -/

theorem bufLt_irrefl : ∀ b : Buf, bufLt b b = false
  | [] => rfl
  | x :: xs => by simp [bufLt, bufLt_irrefl xs]

theorem bufLt_total : ∀ a b : Buf, a ≠ b → bufLt a b = true ∨ bufLt b a = true
  | [], [], h => absurd rfl h
  | [], _ :: _, _ => .inl rfl
  | _ :: _, [], _ => .inr rfl
  | x :: xs, y :: ys, h => by
    rcases Nat.lt_trichotomy x y with hxy | hxy | hxy
    · exact .inl (by simp [bufLt, hxy])
    · subst hxy
      have hne : xs ≠ ys := fun he => h (by rw [he])
      rcases bufLt_total xs ys hne with ht | ht
      · exact .inl (by simp [bufLt, ht])
      · exact .inr (by simp [bufLt, ht])
    · exact .inr (by simp [bufLt, hxy])

theorem pairLt_irrefl (x : Nat × Buf) : pairLt x x = false := by
  simp [pairLt, bufLt_irrefl]

theorem pairLt_total {x y : Nat × Buf} (h : x ≠ y) :
    pairLt x y = true ∨ pairLt y x = true := by
  obtain ⟨a, s⟩ := x
  obtain ⟨b, t⟩ := y
  rcases Nat.lt_trichotomy a b with hab | hab | hab
  · exact .inl (by simp [pairLt, hab])
  · subst hab
    have hne : s ≠ t := fun he => h (by rw [he])
    rcases bufLt_total s t hne with ht | ht
    · exact .inl (by simp [pairLt, ht])
    · exact .inr (by simp [pairLt, ht])
  · exact .inr (by simp [pairLt, hab])

theorem bufLt_trans : ∀ a b c : Buf, bufLt a b = true → bufLt b c = true → bufLt a c = true := by
  intro a
  induction a with
  | nil =>
    intro b c h1 h2
    cases b with
    | nil => simp [bufLt] at h1
    | cons y ys =>
      cases c with
      | nil => simp [bufLt] at h2
      | cons z zs => rfl
  | cons x xs ih =>
    intro b c h1 h2
    cases b with
    | nil => simp [bufLt] at h1
    | cons y ys =>
      cases c with
      | nil => simp [bufLt] at h2
      | cons z zs =>
        simp only [bufLt, Bool.or_eq_true, Bool.and_eq_true, decide_eq_true_eq] at h1 h2 ⊢
        rcases h1 with h1 | ⟨he1, h1⟩
        · rcases h2 with h2 | ⟨he2, h2⟩
          · exact .inl (Nat.lt_trans h1 h2)
          · exact .inl (he2 ▸ h1)
        · rcases h2 with h2 | ⟨he2, h2⟩
          · exact .inl (he1 ▸ h2)
          · exact .inr ⟨he1.trans he2, ih ys zs h1 h2⟩

theorem pairLt_trans {x y z : Nat × Buf} (h1 : pairLt x y = true)
    (h2 : pairLt y z = true) : pairLt x z = true := by
  simp only [pairLt, Bool.or_eq_true, Bool.and_eq_true, decide_eq_true_eq] at h1 h2 ⊢
  rcases h1 with h1 | ⟨he1, h1⟩
  · rcases h2 with h2 | ⟨he2, h2⟩
    · exact .inl (Nat.lt_trans h1 h2)
    · exact .inl (he2 ▸ h1)
  · rcases h2 with h2 | ⟨he2, h2⟩
    · exact .inl (he1 ▸ h2)
    · exact .inr ⟨he1.trans he2, bufLt_trans _ _ _ h1 h2⟩

theorem pairLt_fst_le {x y : Nat × Buf} (h : pairLt x y = true) : x.1 ≤ y.1 := by
  simp only [pairLt, Bool.or_eq_true, Bool.and_eq_true, decide_eq_true_eq] at h
  rcases h with h | ⟨h, _⟩
  · omega
  · omega

theorem pairLt_ne {x y : Nat × Buf} (h : pairLt x y = true) : x ≠ y := by
  intro he; subst he; rw [pairLt_irrefl] at h; cases h

/-! ## Lemmas about the association-list map -/

theorem lookupEntry_nil (k : Buf) : lookupEntry [] k = none := rfl

theorem lookupEntry_cons (k0 k : Buf) (e0 : Entry) (rest : List (Buf × Entry)) :
    lookupEntry ((k0, e0) :: rest) k =
      if k0 = k then some e0 else lookupEntry rest k := by
  by_cases h : k0 = k
  · rw [if_pos h]
    unfold lookupEntry
    rw [List.find?_cons_of_pos _ (by simpa using h)]
    rfl
  · rw [if_neg h]
    unfold lookupEntry
    rw [List.find?_cons_of_neg _ (by simpa using h)]

theorem insertEntry_cons (k0 k : Buf) (e0 e : Entry) (rest : List (Buf × Entry)) :
    insertEntry ((k0, e0) :: rest) k e =
      if k0 = k then (k, e) :: rest else (k0, e0) :: insertEntry rest k e := by
  simp only [insertEntry, beq_iff_eq]

theorem removeEntry_cons (k0 k : Buf) (e0 : Entry) (rest : List (Buf × Entry)) :
    removeEntry ((k0, e0) :: rest) k =
      if k0 = k then rest else (k0, e0) :: removeEntry rest k := by
  simp only [removeEntry, beq_iff_eq]

theorem lookup_insertEntry_self (es : List (Buf × Entry)) (k : Buf) (e : Entry) :
    lookupEntry (insertEntry es k e) k = some e := by
  induction es with
  | nil => simp [insertEntry, lookupEntry_cons]
  | cons kv rest ih =>
    obtain ⟨k0, e0⟩ := kv
    rw [insertEntry_cons]
    by_cases hk : k0 = k
    · rw [if_pos hk, lookupEntry_cons, if_pos rfl]
    · rw [if_neg hk, lookupEntry_cons, if_neg hk]
      exact ih

theorem lookup_insertEntry_ne (es : List (Buf × Entry)) (k k' : Buf) (e : Entry)
    (h : k' ≠ k) : lookupEntry (insertEntry es k e) k' = lookupEntry es k' := by
  induction es with
  | nil =>
    rw [show insertEntry [] k e = [(k, e)] from rfl, lookupEntry_cons,
      if_neg (fun a => h a.symm)]
  | cons kv rest ih =>
    obtain ⟨k0, e0⟩ := kv
    rw [insertEntry_cons]
    by_cases hk : k0 = k
    · rw [if_pos hk, lookupEntry_cons, lookupEntry_cons, if_neg (fun a => h a.symm),
        if_neg (fun a => h (hk ▸ a).symm)]
    · rw [if_neg hk, lookupEntry_cons, lookupEntry_cons]
      by_cases h0 : k0 = k'
      · rw [if_pos h0, if_pos h0]
      · rw [if_neg h0, if_neg h0]
        exact ih

theorem lookup_removeEntry_ne (es : List (Buf × Entry)) (k k' : Buf) (h : k' ≠ k) :
    lookupEntry (removeEntry es k) k' = lookupEntry es k' := by
  induction es with
  | nil => simp [removeEntry]
  | cons kv rest ih =>
    obtain ⟨k0, e0⟩ := kv
    rw [removeEntry_cons]
    by_cases hk : k0 = k
    · rw [if_pos hk, lookupEntry_cons, if_neg (fun a => h (hk ▸ a).symm)]
    · rw [if_neg hk, lookupEntry_cons, lookupEntry_cons]
      by_cases h0 : k0 = k'
      · rw [if_pos h0, if_pos h0]
      · rw [if_neg h0, if_neg h0]
        exact ih

theorem lookupEntry_eq_none_of_not_mem (es : List (Buf × Entry)) (k : Buf)
    (h : ∀ x ∈ es, x.1 ≠ k) : lookupEntry es k = none := by
  induction es with
  | nil => rfl
  | cons kv rest ih =>
    obtain ⟨k0, e0⟩ := kv
    rw [lookupEntry_cons, if_neg (h (k0, e0) (List.mem_cons_self _ _))]
    exact ih (fun x hx => h x (List.mem_cons_of_mem _ hx))

theorem lookup_removeEntry_self (es : List (Buf × Entry)) (k : Buf)
    (hnd : es.Pairwise (fun a b => a.1 ≠ b.1)) :
    lookupEntry (removeEntry es k) k = none := by
  induction es with
  | nil => rfl
  | cons kv rest ih =>
    obtain ⟨k0, e0⟩ := kv
    rw [List.pairwise_cons] at hnd
    rw [removeEntry_cons]
    by_cases hk : k0 = k
    · subst hk
      rw [if_pos rfl]
      exact lookupEntry_eq_none_of_not_mem rest k0
        (fun x hx => (hnd.1 x hx).symm)
    · rw [if_neg hk, lookupEntry_cons, if_neg hk]
      exact ih hnd.2

theorem removeEntry_sublist (es : List (Buf × Entry)) (k : Buf) :
    (removeEntry es k).Sublist es := by
  induction es with
  | nil => simp [removeEntry]
  | cons kv rest ih =>
    obtain ⟨k0, e0⟩ := kv
    rw [removeEntry_cons]
    by_cases hk : k0 = k
    · rw [if_pos hk]
      exact List.sublist_cons_self _ _
    · rw [if_neg hk]
      exact ih.cons₂ _

theorem removeEntry_nodup (es : List (Buf × Entry)) (k : Buf)
    (hnd : es.Pairwise (fun a b => a.1 ≠ b.1)) :
    (removeEntry es k).Pairwise (fun a b => a.1 ≠ b.1) :=
  hnd.sublist (removeEntry_sublist es k)

theorem insertEntry_key_mem {es : List (Buf × Entry)} {k : Buf} {e : Entry}
    {x : Buf × Entry} (hx : x ∈ insertEntry es k e) : x ∈ es ∨ x.1 = k := by
  induction es with
  | nil =>
    simp only [insertEntry, List.mem_singleton] at hx
    exact .inr (by rw [hx])
  | cons kv rest ih =>
    obtain ⟨k0, e0⟩ := kv
    rw [insertEntry_cons] at hx
    by_cases hk : k0 = k
    · rw [if_pos hk] at hx
      rcases List.mem_cons.mp hx with h | h
      · exact .inr (by rw [h])
      · exact .inl (List.mem_cons_of_mem _ h)
    · rw [if_neg hk] at hx
      rcases List.mem_cons.mp hx with h | h
      · exact .inl (h ▸ List.mem_cons_self _ _)
      · rcases ih h with h' | h'
        · exact .inl (List.mem_cons_of_mem _ h')
        · exact .inr h'

theorem insertEntry_nodup (es : List (Buf × Entry)) (k : Buf) (e : Entry)
    (hnd : es.Pairwise (fun a b => a.1 ≠ b.1)) :
    (insertEntry es k e).Pairwise (fun a b => a.1 ≠ b.1) := by
  induction es with
  | nil => simp [insertEntry]
  | cons kv rest ih =>
    obtain ⟨k0, e0⟩ := kv
    rw [List.pairwise_cons] at hnd
    rw [insertEntry_cons]
    by_cases hk : k0 = k
    · subst hk
      rw [if_pos rfl]
      exact List.pairwise_cons.mpr ⟨hnd.1, hnd.2⟩
    · rw [if_neg hk]
      refine List.pairwise_cons.mpr ⟨?_, ih hnd.2⟩
      intro x hx
      rcases insertEntry_key_mem hx with h | h
      · exact hnd.1 x h
      · rw [h]; exact hk

/-! ## Lemmas about the sorted expiration index -/

theorem mem_removeExp {l : List (Nat × Buf)} {x y : Nat × Buf} :
    y ∈ removeExp l x ↔ y ∈ l ∧ y ≠ x := by
  simp [removeExp, List.mem_filter]

theorem removeExp_pairwise {l : List (Nat × Buf)} (x : Nat × Buf)
    (hs : l.Pairwise (fun a b => pairLt a b = true)) :
    (removeExp l x).Pairwise (fun a b => pairLt a b = true) :=
  hs.sublist (List.filter_sublist l)

theorem mem_insertExp {l : List (Nat × Buf)} {x y : Nat × Buf} :
    y ∈ insertExp l x ↔ y = x ∨ y ∈ l := by
  induction l with
  | nil => simp [insertExp]
  | cons z zs ih =>
    unfold insertExp
    by_cases h1 : pairLt x z = true
    · rw [if_pos h1]
      simp only [List.mem_cons]
    · rw [if_neg h1]
      by_cases h2 : x = z
      · rw [if_pos (by simpa using h2)]
        subst h2
        simp only [List.mem_cons]
        tauto
      · rw [if_neg (by simpa using h2)]
        simp only [List.mem_cons, ih]
        tauto

theorem insertExp_pairwise {l : List (Nat × Buf)} (x : Nat × Buf)
    (hs : l.Pairwise (fun a b => pairLt a b = true)) :
    (insertExp l x).Pairwise (fun a b => pairLt a b = true) := by
  induction l with
  | nil => simp [insertExp]
  | cons z zs ih =>
    rw [List.pairwise_cons] at hs
    unfold insertExp
    by_cases h1 : pairLt x z = true
    · rw [if_pos h1]
      refine List.pairwise_cons.mpr ⟨?_, List.pairwise_cons.mpr hs⟩
      intro y hy
      rcases List.mem_cons.mp hy with h | h
      · exact h ▸ h1
      · exact pairLt_trans h1 (hs.1 y h)
    · rw [if_neg h1]
      by_cases h2 : x = z
      · rw [if_pos (by simpa using h2)]
        exact List.pairwise_cons.mpr hs
      · rw [if_neg (by simpa using h2)]
        refine List.pairwise_cons.mpr ⟨?_, ih hs.2⟩
        intro y hy
        rcases mem_insertExp.mp hy with h | h
        · subst h
          rcases pairLt_total h2 with ht | ht
          · exact absurd ht h1
          · exact ht
        · exact hs.1 y h

/-! ## Preservation of the store invariant -/

theorem exps_functional {s : State} (h : Inv s) {w w' : Nat} {k : Buf}
    (h1 : (w, k) ∈ s.expirations) (h2 : (w', k) ∈ s.expirations) : w = w' := by
  rcases (h.2.2 w k).mp h1 with ⟨e, he, hee⟩
  rcases (h.2.2 w' k).mp h2 with ⟨e', he', hee'⟩
  rw [he] at he'
  cases he'
  rw [hee] at hee'
  cases hee'
  rfl

/-- The common tail of `set_inv`: the new entry carries no deadline. -/
theorem set_inv_tail_none (entries : List (Buf × Entry)) (exps E1 : List (Nat × Buf))
    (k v : Buf)
    (hnd : entries.Pairwise (fun a b => a.1 ≠ b.1))
    (hs1 : E1.Pairwise (fun a b => pairLt a b = true))
    (hm1 : ∀ w k', (w, k') ∈ E1 ↔ ((w, k') ∈ exps ∧ k' ≠ k))
    (hiff : ∀ w k', (w, k') ∈ exps ↔
      ∃ e, lookupEntry entries k' = some e ∧ e.expires_at = some w) :
    Inv ⟨insertEntry entries k ⟨v, none⟩, E1⟩ := by
  refine ⟨insertEntry_nodup _ _ _ hnd, hs1, ?_⟩
  intro w k'
  show (w, k') ∈ E1 ↔ _
  rw [hm1]
  by_cases hk : k' = k
  · subst hk
    constructor
    · rintro ⟨_, hne⟩; exact absurd rfl hne
    · rintro ⟨e, he, hee⟩
      rw [lookup_insertEntry_self] at he
      cases he
      cases hee
  · rw [show lookupEntry (insertEntry entries k ⟨v, none⟩) k' = lookupEntry entries k'
      from lookup_insertEntry_ne _ _ _ _ hk]
    rw [← hiff]
    simp [hk]

/-- The common tail of `set_inv`: the new entry's deadline is `nw`. -/
theorem set_inv_tail_some (entries : List (Buf × Entry)) (exps E1 : List (Nat × Buf))
    (k v : Buf) (nw : Nat)
    (hnd : entries.Pairwise (fun a b => a.1 ≠ b.1))
    (hs1 : E1.Pairwise (fun a b => pairLt a b = true))
    (hm1 : ∀ w k', (w, k') ∈ E1 ↔ ((w, k') ∈ exps ∧ k' ≠ k))
    (hiff : ∀ w k', (w, k') ∈ exps ↔
      ∃ e, lookupEntry entries k' = some e ∧ e.expires_at = some w) :
    Inv ⟨insertEntry entries k ⟨v, some nw⟩, insertExp E1 (nw, k)⟩ := by
  refine ⟨insertEntry_nodup _ _ _ hnd, insertExp_pairwise _ hs1, ?_⟩
  intro w k'
  show (w, k') ∈ insertExp E1 (nw, k) ↔ _
  rw [mem_insertExp, hm1]
  by_cases hk : k' = k
  · subst hk
    rw [show lookupEntry (insertEntry entries k' ⟨v, some nw⟩) k' = some ⟨v, some nw⟩
      from lookup_insertEntry_self _ _ _]
    constructor
    · rintro (he | ⟨_, hne⟩)
      · cases he
        exact ⟨⟨v, some nw⟩, rfl, rfl⟩
      · exact absurd rfl hne
    · rintro ⟨e, he, hee⟩
      cases he
      cases hee
      exact .inl rfl
  · rw [show lookupEntry (insertEntry entries k ⟨v, some nw⟩) k' = lookupEntry entries k'
      from lookup_insertEntry_ne _ _ _ _ hk]
    rw [← hiff]
    constructor
    · rintro (he | ⟨hm, _⟩)
      · cases he; exact absurd rfl hk
      · exact hm
    · intro hm
      exact .inr ⟨hm, hk⟩

theorem set_inv (s : State) (k v : Buf) (expire : Option Nat) (now : Nat)
    (h : Inv s) : Inv (Db.set s k v expire now).state := by
  obtain ⟨hnd, hsort, hiff⟩ := h
  rcases hprev : lookupEntry s.entries k with _ | pe
  · -- no previous binding for k, so the index has no pair for k
    have hm1 : ∀ w k', (w, k') ∈ s.expirations ↔ ((w, k') ∈ s.expirations ∧ k' ≠ k) := by
      intro w k'
      refine ⟨fun hw => ⟨hw, fun hk => ?_⟩, fun hw => hw.1⟩
      subst hk
      rcases (hiff w k').mp hw with ⟨e, he, _⟩
      rw [hprev] at he
      cases he
    cases expire with
    | none =>
      simpa [Db.set, hprev] using
        set_inv_tail_none s.entries s.expirations s.expirations k v hnd hsort hm1 hiff
    | some d =>
      simpa [Db.set, hprev] using
        set_inv_tail_some s.entries s.expirations s.expirations k v (now + d)
          hnd hsort hm1 hiff
  · rcases hpe : pe.expires_at with _ | pw
    · -- previous binding without a deadline: again no index pair for k
      have hm1 : ∀ w k', (w, k') ∈ s.expirations ↔ ((w, k') ∈ s.expirations ∧ k' ≠ k) := by
        intro w k'
        refine ⟨fun hw => ⟨hw, fun hk => ?_⟩, fun hw => hw.1⟩
        subst hk
        rcases (hiff w k').mp hw with ⟨e, he, hee⟩
        rw [hprev] at he
        cases he
        rw [hpe] at hee
        cases hee
      cases expire with
      | none =>
        simpa [Db.set, hprev, hpe] using
          set_inv_tail_none s.entries s.expirations s.expirations k v hnd hsort hm1 hiff
      | some d =>
        simpa [Db.set, hprev, hpe] using
          set_inv_tail_some s.entries s.expirations s.expirations k v (now + d)
            hnd hsort hm1 hiff
    · -- previous binding with deadline pw: its pair is removed first
      have hm1 : ∀ w k', (w, k') ∈ removeExp s.expirations (pw, k) ↔
          ((w, k') ∈ s.expirations ∧ k' ≠ k) := by
        intro w k'
        rw [mem_removeExp]
        constructor
        · rintro ⟨hw, hne⟩
          refine ⟨hw, fun hk => ?_⟩
          subst hk
          rcases (hiff w k').mp hw with ⟨e, he, hee⟩
          rw [hprev] at he
          cases he
          rw [hpe] at hee
          cases hee
          exact hne rfl
        · rintro ⟨hw, hk⟩
          exact ⟨hw, fun he => hk (by cases he; rfl)⟩
      cases expire with
      | none =>
        simpa [Db.set, hprev, hpe] using
          set_inv_tail_none s.entries s.expirations (removeExp s.expirations (pw, k))
            k v hnd (removeExp_pairwise _ hsort) hm1 hiff
      | some d =>
        simpa [Db.set, hprev, hpe] using
          set_inv_tail_some s.entries s.expirations (removeExp s.expirations (pw, k))
            k v (now + d) hnd (removeExp_pairwise _ hsort) hm1 hiff

theorem delete_inv (s : State) (k : Buf) (h : Inv s) : Inv (Db.delete s k).2 := by
  obtain ⟨hnd, hsort, hiff⟩ := h
  rcases hprev : lookupEntry s.entries k with _ | e
  · simpa [Db.delete, hprev] using ⟨hnd, hsort, hiff⟩
  · rcases hpe : e.expires_at with _ | pw
    · simp only [Db.delete, hprev, hpe]
      refine ⟨removeEntry_nodup _ _ hnd, hsort, ?_⟩
      intro w k'
      by_cases hk : k' = k
      · subst hk
        constructor
        · intro hw
          rcases (hiff w k').mp hw with ⟨e', he', hee'⟩
          rw [hprev] at he'
          cases he'
          rw [hpe] at hee'
          cases hee'
        · rintro ⟨e', he', _⟩
          rw [lookup_removeEntry_self _ _ hnd] at he'
          cases he'
      · show (w, k') ∈ s.expirations ↔ _
        rw [lookup_removeEntry_ne _ _ _ hk]
        exact hiff w k'
    · simp only [Db.delete, hprev, hpe]
      refine ⟨removeEntry_nodup _ _ hnd, removeExp_pairwise _ hsort, ?_⟩
      intro w k'
      rw [mem_removeExp]
      by_cases hk : k' = k
      · subst hk
        constructor
        · rintro ⟨hw, hne⟩
          rcases (hiff w k').mp hw with ⟨e', he', hee'⟩
          rw [hprev] at he'
          cases he'
          rw [hpe] at hee'
          cases hee'
          exact absurd rfl hne
        · rintro ⟨e', he', _⟩
          rw [lookup_removeEntry_self _ _ hnd] at he'
          cases he'
      · rw [lookup_removeEntry_ne _ _ _ hk]
        constructor
        · rintro ⟨hw, _⟩
          exact (hiff w k').mp hw
        · intro hx
          exact ⟨(hiff w k').mpr hx, fun he => hk (by cases he; rfl)⟩

theorem purge_inv (s : State) (now : Nat) (h : Inv s) :
    Inv (Shared.purge_expired_keys s now).2 := by
  obtain ⟨hnd, hsort, hiff⟩ := h
  rcases hhead : s.expirations.head? with _ | ⟨w0, k0⟩
  · simpa [Shared.purge_expired_keys, hhead] using ⟨hnd, hsort, hiff⟩
  · by_cases hlt : now < w0
    · simpa [Shared.purge_expired_keys, hhead, hlt] using ⟨hnd, hsort, hiff⟩
    · simp only [Shared.purge_expired_keys, hhead, if_neg hlt]
      have hw0 : (w0, k0) ∈ s.expirations := List.mem_of_mem_head? (by simp [hhead])
      refine ⟨removeEntry_nodup _ _ hnd, removeExp_pairwise _ hsort, ?_⟩
      intro w k'
      rw [mem_removeExp]
      by_cases hk : k' = k0
      · subst hk
        constructor
        · rintro ⟨hw, hne⟩
          have := exps_functional ⟨hnd, hsort, hiff⟩ hw hw0
          exact (hne (by rw [this])).elim
        · rintro ⟨e', he', _⟩
          rw [lookup_removeEntry_self _ _ hnd] at he'
          cases he'
      · rw [lookup_removeEntry_ne _ _ _ hk]
        constructor
        · rintro ⟨hw, _⟩
          exact (hiff w k').mp hw
        · intro hx
          exact ⟨(hiff w k').mpr hx, fun he => hk (by cases he; rfl)⟩

theorem removeExp_head {x : Nat × Buf} {rest : List (Nat × Buf)}
    (hs : (x :: rest).Pairwise (fun a b => pairLt a b = true)) :
    removeExp (x :: rest) x = rest := by
  rw [List.pairwise_cons] at hs
  unfold removeExp
  rw [List.filter_cons, if_neg (by simp)]
  exact List.filter_eq_self.mpr fun y hy => by
    simpa [bne_iff_ne] using (pairLt_ne (hs.1 y hy)).symm

theorem sorted_head_min {l : List (Nat × Buf)} {x y : Nat × Buf}
    (hs : (x :: l).Pairwise (fun a b => pairLt a b = true)) (hy : y ∈ x :: l) :
    x.1 ≤ y.1 := by
  rcases List.mem_cons.mp hy with h | h
  · rw [h]
  · exact pairLt_fst_le ((List.pairwise_cons.mp hs).1 y h)

/-- Full behavior of the back-to-back purge passes: the index loses
exactly its expired prefix; entries without a deadline or with a future
deadline survive untouched; every entry whose deadline has passed is gone
from the map; absent keys stay absent; and the invariant is preserved. -/
theorem reaperDrainFuel_spec (fuel : Nat) :
    ∀ s : State, Inv s → ∀ now : Nat, s.expirations.length ≤ fuel →
    (reaperDrainFuel fuel s now).expirations
        = s.expirations.dropWhile (fun p => decide (p.1 ≤ now)) ∧
    Inv (reaperDrainFuel fuel s now) ∧
    (∀ k e, lookupEntry s.entries k = some e →
      (∀ w, e.expires_at = some w → now < w) →
      lookupEntry (reaperDrainFuel fuel s now).entries k = some e) ∧
    (∀ w k, (w, k) ∈ s.expirations → w ≤ now →
      lookupEntry (reaperDrainFuel fuel s now).entries k = none) ∧
    (∀ k, lookupEntry s.entries k = none →
      lookupEntry (reaperDrainFuel fuel s now).entries k = none) := by
  induction fuel with
  | zero =>
    intro s hInv now hfuel
    have hnil : s.expirations = [] := List.eq_nil_of_length_eq_zero (by omega)
    refine ⟨by simp [reaperDrainFuel, hnil], hInv, fun k e he _ => he, ?_, fun k h => h⟩
    intro w k hw
    rw [hnil] at hw
    cases hw
  | succ fuel ih =>
    intro s hInv now hfuel
    rcases hl : s.expirations with _ | ⟨⟨w0, k0⟩, tail⟩
    · have hr : reaperDrainFuel (fuel + 1) s now = s := by
        simp [reaperDrainFuel, hl]
      rw [hr]
      refine ⟨by simp [hl], hInv, fun k e he _ => he, ?_, fun k h => h⟩
      intro w k hw
      cases hw
    · obtain ⟨hnd, hsort, hiff⟩ := hInv
      have hsort' := hl ▸ hsort
      have hw0mem : (w0, k0) ∈ s.expirations := by rw [hl]; exact List.mem_cons_self _ _
      rcases (hiff w0 k0).mp hw0mem with ⟨e0, he0, hee0⟩
      by_cases hle : w0 ≤ now
      · -- the head pair is expired: one pass removes it, then recurse
        have hpurge : (Shared.purge_expired_keys s now).2
            = ⟨removeEntry s.entries k0, tail⟩ := by
          simp only [Shared.purge_expired_keys, hl, List.head?_cons,
            if_neg (Nat.not_lt.mpr hle)]
          rw [removeExp_head hsort']
        have hr : reaperDrainFuel (fuel + 1) s now
            = reaperDrainFuel fuel ⟨removeEntry s.entries k0, tail⟩ now := by
          simp only [reaperDrainFuel, hl, List.head?_cons, if_pos hle, hpurge]
        have hInv' : Inv (⟨removeEntry s.entries k0, tail⟩ : State) := by
          rw [← hpurge]
          exact purge_inv s now ⟨hnd, hsort, hiff⟩
        have hlen : tail.length ≤ fuel := by
          have := hl ▸ (show s.expirations.length ≤ fuel + 1 from hfuel)
          simpa using this
        obtain ⟨ihd, ihInv, ihlive, ihdead, ihnone⟩ :=
          ih ⟨removeEntry s.entries k0, tail⟩ hInv' now hlen
        rw [hr]
        refine ⟨?_, ihInv, ?_, ?_, ?_⟩
        · rw [ihd]
          show List.dropWhile _ tail = _
          rw [List.dropWhile_cons_of_pos (by simpa using hle)]
        · intro k e he hlive
          have hk : k ≠ k0 := by
            intro hkk
            subst hkk
            rw [he0] at he
            cases he
            exact absurd (hlive w0 hee0) (by omega)
          exact ihlive k e (by
            show lookupEntry (removeEntry s.entries k0) k = some e
            rw [lookup_removeEntry_ne _ _ _ hk]; exact he) hlive
        · intro w k hw hwle
          by_cases hk : k = k0
          · subst hk
            exact ihnone k (lookup_removeEntry_self _ _ hnd)
          · have hwtail : (w, k) ∈ tail := by
              rcases List.mem_cons.mp hw with hc | hc
              · cases hc; exact absurd rfl hk
              · exact hc
            exact ihdead w k hwtail hwle
        · intro k hnone
          by_cases hk : k = k0
          · subst hk
            exact ihnone k (lookup_removeEntry_self _ _ hnd)
          · exact ihnone k (by
              show lookupEntry (removeEntry s.entries k0) k = none
              rw [lookup_removeEntry_ne _ _ _ hk]; exact hnone)
      · -- the earliest deadline is still in the future: nothing happens
        have hr : reaperDrainFuel (fuel + 1) s now = s := by
          simp only [reaperDrainFuel, hl, List.head?_cons, if_neg hle]
        rw [hr]
        refine ⟨?_, ⟨hnd, hsort, hiff⟩, fun k e he _ => he, ?_, fun k h => h⟩
        · rw [hl, List.dropWhile_cons_of_neg (by simpa using hle)]
        · intro w k hw hwle
          have : w0 ≤ w := sorted_head_min hsort' hw
          omega

theorem inv_empty : Inv State.empty := by
  refine ⟨List.Pairwise.nil, List.Pairwise.nil, ?_⟩
  intro w k
  constructor
  · intro h
    cases h
  · rintro ⟨e, he, _⟩
    cases he

theorem applyOp_inv (s : State) (op : Op) (h : Inv s) : Inv (applyOp s op) := by
  cases op with
  | set k v e now => exact set_inv s k v e now h
  | delete k => exact delete_inv s k h

theorem applyOps_inv (ops : List Op) : Inv (applyOps ops) := by
  unfold applyOps
  suffices h : ∀ s, Inv s → Inv (ops.foldl applyOp s) from h State.empty inv_empty
  induction ops with
  | nil => exact fun s h => h
  | cons op rest ih => exact fun s h => ih _ (applyOp_inv s op h)

/-- `reaperDrain` instantiation of `reaperDrainFuel_spec`. -/
theorem reaperDrain_spec (s : State) (now : Nat) (h : Inv s) :
    (reaperDrain s now).expirations
        = s.expirations.dropWhile (fun p => decide (p.1 ≤ now)) ∧
    Inv (reaperDrain s now) ∧
    (∀ k e, lookupEntry s.entries k = some e →
      (∀ w, e.expires_at = some w → now < w) →
      lookupEntry (reaperDrain s now).entries k = some e) ∧
    (∀ w k, (w, k) ∈ s.expirations → w ≤ now →
      lookupEntry (reaperDrain s now).entries k = none) ∧
    (∀ k, lookupEntry s.entries k = none →
      lookupEntry (reaperDrain s now).entries k = none) :=
  reaperDrainFuel_spec s.expirations.length s h now le_rfl

/-! ## Round-trip support: decimal rendering and terminator scanning -/

theorem digitsVal_append (xs : Buf) (d : Nat) :
    digitsVal (xs ++ [d]) = digitsVal xs * 10 + (d - 48) := by
  unfold digitsVal
  rw [List.foldl_append]
  rfl

theorem natDigitsAux_spec : ∀ fuel n : Nat, n < 10 ^ (fuel + 1) →
    natDigitsAux (fuel + 1) n ≠ [] ∧
    (natDigitsAux (fuel + 1) n).all isDigit = true ∧
    digitsVal (natDigitsAux (fuel + 1) n) = n := by
  intro fuel
  induction fuel with
  | zero =>
    intro n hn
    have h10 : n < 10 := by simpa using hn
    rw [natDigitsAux, if_pos h10]
    refine ⟨by simp, ?_, ?_⟩
    · simp [isDigit]
      omega
    · simp [digitsVal]
  | succ fuel ih =>
    intro n hn
    by_cases h10 : n < 10
    · rw [natDigitsAux, if_pos h10]
      refine ⟨by simp, ?_, ?_⟩
      · simp [isDigit]
        omega
      · simp [digitsVal]
    · rw [natDigitsAux, if_neg h10]
      have hdiv : n / 10 < 10 ^ (fuel + 1) := by
        rw [Nat.div_lt_iff_lt_mul (by norm_num)]
        calc n < 10 ^ (fuel + 1 + 1) := hn
        _ = 10 ^ (fuel + 1) * 10 := by ring
      obtain ⟨hne, hall, hval⟩ := ih (n / 10) hdiv
      refine ⟨by simp [hne], ?_, ?_⟩
      · rw [List.all_append, hall]
        simp [isDigit]
        omega
      · rw [digitsVal_append, hval]
        omega

theorem natToDigits_spec (n : Nat) :
    natToDigits n ≠ [] ∧ (natToDigits n).all isDigit = true ∧
    digitsVal (natToDigits n) = n := by
  have h : n < 10 ^ (n + 1) :=
    lt_of_lt_of_le (Nat.lt_pow_self (by norm_num) n)
      (Nat.pow_le_pow_right (by norm_num) (by omega))
  exact natDigitsAux_spec n n h

theorem isDigit_bounds {d : Nat} (h : isDigit d = true) : 48 ≤ d ∧ d ≤ 57 := by
  simp [isDigit] at h
  exact h

theorem hasCRLF_of_all_isDigit : ∀ l : Buf, l.all isDigit = true → hasCRLF l = false := by
  intro l
  induction l with
  | nil => intro _; rfl
  | cons x rest ih =>
    intro h
    rw [List.all_cons, Bool.and_eq_true] at h
    cases rest with
    | nil => rfl
    | cons y r =>
      rw [hasCRLF, ih h.2, Bool.or_false]
      have hx := isDigit_bounds h.1
      simp
      omega

theorem scanCRLF_cons (x : Nat) (l : Buf) :
    scanCRLF (x :: l) =
      if x = 13 then
        match l with
        | [] => .error .panic
        | y :: _ =>
          if y = 10 then .ok (some 0)
          else (scanCRLF l).map (fun o => o.map (· + 1))
      else (scanCRLF l).map (fun o => o.map (· + 1)) := rfl

theorem scanCRLF_clean_append (s rest : Buf) (h : hasCRLF s = false) :
    scanCRLF (s ++ 13 :: 10 :: rest) = .ok (some s.length) := by
  induction s with
  | nil => rfl
  | cons x s' ih =>
    by_cases hx : x = 13
    · subst hx
      cases s' with
      | nil => rfl
      | cons y s'' =>
        rw [hasCRLF] at h
        rw [Bool.or_eq_false_iff, Bool.and_eq_false_iff] at h
        have hy : ¬ y = 10 := by
          rcases h.1 with hc | hc
          · simp at hc
          · simpa using hc
        show scanCRLF (13 :: ((y :: s'') ++ 13 :: 10 :: rest)) = .ok (some (s''.length + 2))
        rw [scanCRLF_cons, if_pos rfl]
        change (if y = 10 then (Except.ok (some 0) : Except FErr (Option Nat))
          else (scanCRLF (y :: s'' ++ 13 :: 10 :: rest)).map (fun o => o.map (· + 1))) = _
        rw [if_neg hy, ih h.2]
        rfl
    · rw [show (x :: s') ++ 13 :: 10 :: rest = x :: (s' ++ 13 :: 10 :: rest) from rfl,
        scanCRLF_cons, if_neg hx]
      have hs' : hasCRLF s' = false := by
        cases s' with
        | nil => rfl
        | cons y r =>
          rw [hasCRLF, Bool.or_eq_false_iff] at h
          exact h.2
      rw [ih hs']
      rfl

/-- `get_line` on a buffer whose payload, starting at position 1, is a
CRLF-free string followed by the terminator: the line is the payload and
the position lands just past the terminator. -/
theorem get_line_at_one (c : Nat) (s tail2 : Buf) (h : hasCRLF s = false) :
    get_line (c :: (s ++ 13 :: 10 :: tail2)) 1 = .ok (s, s.length + 3) := by
  unfold get_line
  rw [if_neg (by simp)]
  rw [show (c :: (s ++ 13 :: 10 :: tail2)).drop 1 = s ++ 13 :: 10 :: tail2 from rfl]
  rw [scanCRLF_clean_append s tail2 h]
  dsimp only
  rw [List.take_left]
  have harith : 1 + s.length + 2 = s.length + 3 := by omega
  rw [harith]

theorem parseU64_natToDigits (n : Nat) (h : n ≤ u64Max) :
    parseU64 (natToDigits n) = some n := by
  obtain ⟨hne, hall, hval⟩ := natToDigits_spec n
  cases hd : natToDigits n with
  | nil => exact absurd hd hne
  | cons a l =>
    rw [hd] at hall hval
    have ha' := isDigit_bounds (by
      rw [List.all_cons, Bool.and_eq_true] at hall
      exact hall.1)
    unfold parseU64
    rw [List.head?_cons]
    rw [if_neg (show ¬ some a = some 43 by
      intro hc
      injection hc with hc'
      omega)]
    dsimp only
    rw [if_pos (show (decide ((a :: l) ≠ []) && (a :: l).all isDigit
        && decide (digitsVal (a :: l) ≤ u64Max)) = true by
      rw [hall, hval]
      simp [h])]
    rw [hval]

theorem get_u8_cons0 (x : Nat) (l : Buf) : get_u8 (x :: l) 0 = .ok (x, 1) := by
  unfold get_u8
  rw [if_pos (by simp)]
  rfl

theorem peek_u8_cons1 (x y : Nat) (l : Buf) : peek_u8 (x :: y :: l) 1 = .ok y := by
  unfold peek_u8
  rw [if_pos (by simp)]
  rfl

theorem roundtrip_simple (s : Buf) (hcr : hasCRLF s = false)
    (hutf : validUtf8 s = true) :
    Frame.parse (43 :: (s ++ [13, 10])) 0 = .ok (.Simple s, s.length + 3) := by
  have h1 : get_line (43 :: (s ++ [13, 10])) 1 = .ok (s, s.length + 3) :=
    get_line_at_one 43 s [] hcr
  unfold Frame.parse
  simp only [parseFuel, get_u8_cons0]
  simp only [h1]
  simp [hutf]

theorem roundtrip_error (s : Buf) (hcr : hasCRLF s = false)
    (hutf : validUtf8 s = true) :
    Frame.parse (45 :: (s ++ [13, 10])) 0 = .ok (.Error s, s.length + 3) := by
  have h1 : get_line (45 :: (s ++ [13, 10])) 1 = .ok (s, s.length + 3) :=
    get_line_at_one 45 s [] hcr
  unfold Frame.parse
  simp only [parseFuel, get_u8_cons0]
  simp only [h1]
  simp [hutf]

theorem roundtrip_integer (i : Nat) (h : i ≤ u64Max) :
    Frame.parse (58 :: (natToDigits i ++ [13, 10])) 0
      = .ok (.Integer i, (natToDigits i).length + 3) := by
  obtain ⟨hne, hall, hval⟩ := natToDigits_spec i
  have hcr := hasCRLF_of_all_isDigit _ hall
  have h1 : get_line (58 :: (natToDigits i ++ [13, 10])) 1
      = .ok (natToDigits i, (natToDigits i).length + 3) :=
    get_line_at_one 58 (natToDigits i) [] hcr
  have h2 : get_decimal (58 :: (natToDigits i ++ [13, 10])) 1
      = .ok (i, (natToDigits i).length + 3) := by
    unfold get_decimal
    rw [h1]
    simp [parseU64_natToDigits i h]
  unfold Frame.parse
  simp only [parseFuel, get_u8_cons0]
  simp only [h2]
  simp

theorem roundtrip_bulk (b : Buf) (_hutf : validUtf8 b = true)
    (hlen : b.length ≤ u64Max) :
    Frame.parse (36 :: (natToDigits b.length ++ (13 :: 10 :: (b ++ [13, 10])))) 0
      = .ok (.Bulk b, (natToDigits b.length).length + 3 + b.length + 2) := by
  obtain ⟨hne, hall, hval⟩ := natToDigits_spec b.length
  have hcr := hasCRLF_of_all_isDigit _ hall
  have h3 := parseU64_natToDigits b.length hlen
  cases hd : natToDigits b.length with
  | nil => exact absurd hd hne
  | cons a l =>
    rw [hd] at hall hcr h3
    have ha' := isDigit_bounds (by
      rw [List.all_cons, Bool.and_eq_true] at hall
      exact hall.1)
    have hane : ¬ a = 45 := by omega
    have h1 : get_line (36 :: ((a :: l) ++ 13 :: 10 :: (b ++ [13, 10]))) 1
        = .ok (a :: l, (a :: l).length + 3) :=
      get_line_at_one 36 (a :: l) (b ++ [13, 10]) hcr
    have h2 : get_decimal (36 :: ((a :: l) ++ 13 :: 10 :: (b ++ [13, 10]))) 1
        = .ok (b.length, (a :: l).length + 3) := by
      unfold get_decimal
      rw [h1]
      simp [h3]
    have hlength : ((36 : Nat) :: ((a :: l) ++ 13 :: 10 :: (b ++ [13, 10]))).length
        = (a :: l).length + 3 + b.length + 2 := by
      simp
      omega
    have hrem : ¬ remaining (36 :: ((a :: l) ++ 13 :: 10 :: (b ++ [13, 10])))
        ((a :: l).length + 3) < b.length := by
      unfold remaining
      rw [hlength]
      omega
    have hskip : skip (36 :: ((a :: l) ++ 13 :: 10 :: (b ++ [13, 10])))
        ((a :: l).length + 3 + b.length) 2 = .ok ((a :: l).length + 3 + b.length + 2) := by
      unfold skip remaining
      rw [hlength]
      rw [if_neg (by omega)]
    have hdrop : ((36 :: ((a :: l) ++ 13 :: 10 :: (b ++ [13, 10]))) : Buf).drop
        ((a :: l).length + 3) = b ++ [13, 10] := by
      show ((a :: l) ++ 13 :: 10 :: (b ++ [13, 10])).drop ((a :: l).length + 2)
          = b ++ [13, 10]
      rw [show (a :: l) ++ 13 :: 10 :: (b ++ [13, 10])
          = ((a :: l) ++ [13, 10]) ++ (b ++ [13, 10]) by simp]
      rw [show (a :: l).length + 2 = ((a :: l) ++ [13, 10]).length by simp]
      exact List.drop_left _ _
    unfold Frame.parse
    simp only [parseFuel, get_u8_cons0]
    simp only [show ((36 : Nat) :: ((a :: l) ++ 13 :: 10 :: (b ++ [13, 10])))
        = 36 :: a :: (l ++ 13 :: 10 :: (b ++ [13, 10])) from rfl, peek_u8_cons1]
    simp only [show (36 : Nat) :: a :: (l ++ 13 :: 10 :: (b ++ [13, 10]))
        = 36 :: ((a :: l) ++ 13 :: 10 :: (b ++ [13, 10])) from rfl]
    simp only [h2, hskip]
    simp only [if_neg hane, if_neg hrem]
    simp [hdrop, List.take_left]

/-! ## The C5 round-trip claim -/

/-- C5, counterexample: the claim includes flat `Array` frames and asserts
`serialize` is total on them; in the source `serialize` panics on EVERY
`Array` frame (the `_ => panic!("Not implemented")` arm), flat ones
included, so `parse(serialize(f)) == f` cannot even be evaluated there. -/
theorem C5_serialize_panics_on_flat_array :
    Frame.serialize (.Array [.Simple [79, 75]]) = none := rfl

/-- C5, amended: the round trip `parse(serialize(f)) == f` (with the final
cursor position equal to the serialized length) holds for every `Simple`,
`Error`, `Integer`, `Bulk` and `Null` frame within the source's actual
domain: `Simple`/`Error` text free of `\r\n`, `Integer` a `u64`, `Bulk`
payload valid UTF-8 with `u64` length; no `Array` frame — flat or nested —
serializes at all (`serialize` panics on the `Array` arm). -/
theorem C5_roundtrip_non_array (f : Frame) (h : RoundTrips f) :
    ∃ out : Buf, Frame.serialize f = some out ∧
      Frame.parse out 0 = .ok (f, out.length) := by
  cases f with
  | Simple s =>
    obtain ⟨hcr, hutf⟩ := h
    refine ⟨43 :: (s ++ [13, 10]), rfl, ?_⟩
    rw [roundtrip_simple s hcr hutf]
    simp
  | Error s =>
    obtain ⟨hcr, hutf⟩ := h
    refine ⟨45 :: (s ++ [13, 10]), rfl, ?_⟩
    rw [roundtrip_error s hcr hutf]
    simp
  | Integer i =>
    refine ⟨58 :: (natToDigits i ++ [13, 10]), rfl, ?_⟩
    rw [roundtrip_integer i h]
    simp
  | Bulk b =>
    obtain ⟨hutf, hlen⟩ := h
    refine ⟨36 :: (natToDigits b.length ++ [13, 10] ++ b ++ [13, 10]), ?_, ?_⟩
    · simp only [Frame.serialize]
      rw [if_pos hutf]
    · have hshape : natToDigits b.length ++ [13, 10] ++ b ++ [13, 10]
          = natToDigits b.length ++ (13 :: 10 :: (b ++ [13, 10])) := by
        simp
      rw [hshape, roundtrip_bulk b hutf hlen]
      have : ((36 : Nat) :: (natToDigits b.length ++ (13 :: 10 :: (b ++ [13, 10])))).length
          = (natToDigits b.length).length + 3 + b.length + 2 := by
        simp
        omega
      rw [this]
  | Null => exact ⟨[36, 45, 49, 13, 10], rfl, rfl⟩
  | Array fs => exact h.elim

/-- C5, witness for the amended theorem at `f = Bulk "foo"`. -/
theorem C5_roundtrip_non_array_witness :
    ∃ out : Buf, Frame.serialize (.Bulk [102, 111, 111]) = some out ∧
      Frame.parse out 0 = .ok (.Bulk [102, 111, 111], out.length) :=
  C5_roundtrip_non_array (.Bulk [102, 111, 111]) ⟨rfl, by norm_num [u64Max]⟩

/-! ## Claims about the store -/

/-- C10: `Db::get` is purely observational: for every key and every store
state it leaves the entries map and the expiration index exactly
unchanged — its body only locks, looks the key up and clones the data;
there is no lazy expiry-on-read removal and no mutation of any entry. -/
theorem C10_get_is_pure (s : State) (k : Buf) : (Db.get s k).2 = s := rfl

/-- C1, counterexample: after `set(k, v, ttl = 100)` issued at time 0 the
stored deadline is 100; at time 110 that deadline has passed, yet — the
reaper not having run — `Db::get` still returns the value, because the
source's `get` never consults `expires_at`.  The claim says `get` must
return absent "whether or not the background reaper has already removed
the entry". -/
theorem C1_get_returns_expired_entry :
    lookupEntry (Db.set State.empty [107] [118] (some 100) 0).state.entries [107]
        = some ⟨[118], some 100⟩ ∧
    100 < 110 ∧
    (Db.get (Db.set State.empty [107] [118] (some 100) 0).state [107]).1 = some [118] :=
  ⟨by simp [Db.set, State.empty, lookupEntry, insertEntry], by omega,
   by simp [Db.set, Db.get, State.empty, lookupEntry, insertEntry]⟩

/-- C1, amended: `Db::get` returns the stored value whenever the key is
present in the map, with no deadline check — after `set(k, v, ttl = d)` at
time `now`, `get(k)` returns `v` for as long as the reaper has not run,
even past the deadline; once the reaper performs a purge pass at any time
`t ≥ now + d` the entry is gone and `get(k)` returns absent. -/
theorem C1_get_after_set_and_purge (k v : Buf) (d now t : Nat) (h : now + d ≤ t) :
    (Db.get (Db.set State.empty k v (some d) now).state k).1 = some v ∧
    (Db.get (Shared.purge_expired_keys
        (Db.set State.empty k v (some d) now).state t).2 k).1 = none := by
  have hstate : (Db.set State.empty k v (some d) now).state
      = ⟨[(k, ⟨v, some (now + d)⟩)], [(now + d, k)]⟩ := rfl
  rw [hstate]
  constructor
  · simp [Db.get, lookupEntry_cons]
  · show (Db.get (Shared.purge_expired_keys
        ⟨[(k, ⟨v, some (now + d)⟩)], [(now + d, k)]⟩ t).2 k).1 = none
    simp only [Shared.purge_expired_keys, List.head?_cons]
    rw [if_neg (show ¬ t < now + d by omega)]
    simp [Db.get, removeEntry, removeExp, lookupEntry]

/-- C1, witness for the amended theorem at `k = "k"`, `v = "v"`,
`ttl = 100`, set at time 0, purged at time 110. -/
theorem C1_get_after_set_and_purge_witness :
    (Db.get (Db.set State.empty [107] [118] (some 100) 0).state [107]).1 = some [118] ∧
    (Db.get (Shared.purge_expired_keys
        (Db.set State.empty [107] [118] (some 100) 0).state 110).2 [107]).1 = none :=
  C1_get_after_set_and_purge [107] [118] 100 0 110 (by decide)

/-- C2: for every sequence of set, overwrite and delete operations run
from the fresh store, the expiration index contains exactly the
(deadline, key) pairs of the keys currently present in the map with a
deadline — each such map entry has exactly one index pair (the index is
duplicate-free) and every index pair has a matching map entry: no
orphans, no omissions. -/
theorem C2_index_consistency (ops : List Op) :
    (applyOps ops).expirations.Nodup ∧
    ∀ w k, (w, k) ∈ (applyOps ops).expirations ↔
      ∃ e, lookupEntry (applyOps ops).entries k = some e ∧ e.expires_at = some w := by
  obtain ⟨_, hsort, hiff⟩ := applyOps_inv ops
  exact ⟨List.Pairwise.imp (fun h => pairLt_ne h) hsort, hiff⟩

/-- C7, counterexample: with two expired entries (deadlines 5 and 6, both
`≤ now = 10`) a single pass of `Shared::purge_expired_keys` removes only
the earliest one; the entry with deadline 6 is still in the index and in
the map after the pass, contradicting "removes ... every entry whose
deadline is ≤ now (not just one)". -/
theorem C7_single_pass_leaves_expired_entry :
    ((Db.set (Db.set State.empty [97] [1] (some 5) 0).state
        [98] [2] (some 6) 0).state).expirations = [(5, [97]), (6, [98])] ∧
    (Shared.purge_expired_keys
        (Db.set (Db.set State.empty [97] [1] (some 5) 0).state
          [98] [2] (some 6) 0).state 10).2.expirations = [(6, [98])] ∧
    lookupEntry (Shared.purge_expired_keys
        (Db.set (Db.set State.empty [97] [1] (some 5) 0).state
          [98] [2] (some 6) 0).state 10).2.entries [98] = some ⟨[2], some 6⟩ :=
  ⟨by decide, by decide, by decide⟩

/-- C7, amended: one pass of `Shared::purge_expired_keys` removes AT MOST
ONE entry — the index minimum, when its deadline is `≤ now` — from both
map and index, returning the new earliest deadline (`None` on an empty
index, the untouched future deadline otherwise); because the reaper's
`sleep_until` of an already-past deadline returns immediately, its
back-to-back passes (`reaperDrain`) remove exactly the entries with
deadline `≤ now`: afterwards only future deadlines remain in the index
and every key whose deadline had passed is gone from the map. -/
theorem C7_purge_pass_and_drain (s : State) (now : Nat) (h : Inv s) :
    (∀ w k, s.expirations.head? = some (w, k) → w ≤ now →
      (Shared.purge_expired_keys s now).2.expirations = s.expirations.tail ∧
      lookupEntry (Shared.purge_expired_keys s now).2.entries k = none ∧
      (Shared.purge_expired_keys s now).1 =
        (Shared.purge_expired_keys s now).2.next_expiration) ∧
    (∀ w k, s.expirations.head? = some (w, k) → now < w →
      Shared.purge_expired_keys s now = (some w, s)) ∧
    (s.expirations = [] → Shared.purge_expired_keys s now = (none, s)) ∧
    ((reaperDrain s now).expirations
        = s.expirations.dropWhile (fun p => decide (p.1 ≤ now))) ∧
    (∀ w k, (w, k) ∈ s.expirations → w ≤ now →
      lookupEntry (reaperDrain s now).entries k = none) := by
  obtain ⟨hnd, hsort, hiff⟩ := h
  obtain ⟨hd, _, _, hdead, _⟩ := reaperDrain_spec s now ⟨hnd, hsort, hiff⟩
  refine ⟨?_, ?_, ?_, hd, hdead⟩
  · intro w k hhead hle
    rcases hl : s.expirations with _ | ⟨⟨w0, k0⟩, tail⟩
    · rw [hl] at hhead
      cases hhead
    · rw [hl, List.head?_cons] at hhead
      cases hhead
      have hsort' := hl ▸ hsort
      have hpurge : Shared.purge_expired_keys s now
          = (tail.head?.map (·.1), ⟨removeEntry s.entries k, tail⟩) := by
        simp only [Shared.purge_expired_keys, hl, List.head?_cons,
          if_neg (Nat.not_lt.mpr hle)]
        rw [removeExp_head hsort']
      rw [hpurge]
      exact ⟨rfl, lookup_removeEntry_self _ _ hnd, rfl⟩
  · intro w k hhead hlt
    rcases hl : s.expirations with _ | ⟨⟨w0, k0⟩, tail⟩
    · rw [hl] at hhead
      cases hhead
    · rw [hl, List.head?_cons] at hhead
      cases hhead
      simp only [Shared.purge_expired_keys, hl, List.head?_cons, if_pos hlt]
  · intro hl
    simp [Shared.purge_expired_keys, hl]

/-- C7, witness: the two-expired-entries store at time 10 — after the
drain the key with deadline 6 is gone from the map. -/
theorem C7_purge_pass_and_drain_witness :
    lookupEntry (reaperDrain
        (Db.set (Db.set State.empty [97] [1] (some 5) 0).state
          [98] [2] (some 6) 0).state 10).entries [98] = none :=
  (C7_purge_pass_and_drain
      (Db.set (Db.set State.empty [97] [1] (some 5) 0).state [98] [2] (some 6) 0).state
      10
      (set_inv _ _ _ _ _ (set_inv _ _ _ _ _ inv_empty))).2.2.2.2
    6 [98] (by decide) (by decide)

/-- C8, counterexample: overwrite the sole deadline-bearing key with a
LATER deadline.  Before the second `set` a deadline existed (so the new
one is not "the first deadline ever"); after the mutation the newly
inserted deadline 10 is the only — hence the earliest — deadline in the
index, yet no wake signal is sent (`notify = false`), because the source
compares against the pre-mutation minimum (5 < 10).  This refutes the
claimed "if and only if". -/
theorem C8_notify_not_iff_earliest_after_mutation :
    (Db.set State.empty [107] [118] (some 5) 0).state.expirations = [(5, [107])] ∧
    (Db.set (Db.set State.empty [107] [118] (some 5) 0).state
        [107] [118] (some 10) 0).notify = false ∧
    (Db.set (Db.set State.empty [107] [118] (some 5) 0).state
        [107] [118] (some 10) 0).state.expirations = [(10, [107])] :=
  ⟨by decide, by decide, by decide⟩

/-- C8, amended: for a `set` with a deadline, the wake signal is sent if
and only if the new deadline is strictly earlier than every deadline
present in the index BEFORE the mutation (in particular, always when no
deadline was tracked); a `set` without a deadline never signals.  (The
signal, when sent, is issued after the state lock is released — in the
source `notify_one` follows `drop(state)` —, an ordering fact outside
this state model.) -/
theorem C8_notify_iff_earlier_than_premutation_min (s : State) (k v : Buf)
    (d now : Nat)
    (hs : s.expirations.Pairwise (fun x y => pairLt x y = true)) :
    ((Db.set s k v (some d) now).notify = true ↔
      ∀ p ∈ s.expirations, now + d < p.1) ∧
    (Db.set s k v none now).notify = false := by
  constructor
  · show ((s.next_expiration.map (fun t => decide (t > now + d))).getD true = true ↔ _)
    rcases hl : s.expirations with _ | ⟨⟨w0, k0⟩, tail⟩
    · simp [State.next_expiration, hl]
    · simp only [State.next_expiration, hl, List.head?_cons, Option.map_some',
        Option.getD_some, decide_eq_true_eq]
      constructor
      · intro hd p hp
        have h0 : w0 ≤ p.1 := sorted_head_min (hl ▸ hs) hp
        omega
      · intro hall
        have := hall (w0, k0) (List.mem_cons_self _ _)
        simpa using this
  · rfl

/-- C8, witness for the amended theorem: inserting deadline 3 below the
tracked deadline 5 signals; a deadline-free `set` does not. -/
theorem C8_notify_iff_earlier_than_premutation_min_witness :
    ((Db.set (Db.set State.empty [107] [118] (some 5) 0).state
        [106] [1] (some 3) 0).notify = true ↔
      ∀ p ∈ (Db.set State.empty [107] [118] (some 5) 0).state.expirations,
        0 + 3 < p.1) ∧
    (Db.set (Db.set State.empty [107] [118] (some 5) 0).state
        [106] [1] none 0).notify = false :=
  C8_notify_iff_earlier_than_premutation_min _ [106] [1] 3 0 (by decide)

/-! ## Claims about the frame codec -/

/-- C3: the claim says `Frame::check` returns the distinguished
`Incomplete` error on every strict prefix of a well-formed serialized
frame, and never a success, a protocol error, or a panic.  The source's
`get_line` never reports `Incomplete`: on the strict prefix `"+OK"` of
the frame `"+OK\r\n"` it returns the unterminated remainder as a line and
`check` SUCCEEDS with final position 5 (so the Connection Reader treats
the prefix as a whole frame instead of reading more); on the strict
prefix `"+OK\r"` the scan loop indexes one byte past the end and `check`
panics. -/
theorem C3_check_accepts_or_panics_on_prefix :
    Frame.serialize (.Simple [79, 75]) = some [43, 79, 75, 13, 10] ∧
    Frame.check [43, 79, 75] 0 = .ok 5 ∧
    Frame.check [43, 79, 75, 13] 0 = .error .panic :=
  ⟨rfl, rfl, rfl⟩

/-- C4: the claim says that whenever `check` and `parse` succeed the final
cursor position equals the byte length of the parsed frame and never
exceeds the input.  On the 3-byte input `"+OK"` both succeed with final
position 5 > 3; consequently `Connection::parse_frame` on the buffer
`"+"`, fed one byte, panics inside `BytesMut::advance` (advance by 3 on a
1-byte buffer) instead of waiting for more input. -/
theorem C4_cursor_position_exceeds_input :
    Frame.parse [43, 79, 75] 0 = .ok (.Simple [79, 75], 5) ∧
    ([43, 79, 75] : Buf).length < 5 ∧
    Connection.parse_frame [43] = .error .panic :=
  ⟨rfl, by decide, rfl⟩

/-- C9: SET argument parsing.  `SET key value` with no third argument is
accepted with no expiry; the expiry keyword is case-insensitive and `EX`
takes seconds (`EX 10` = 10000 ms) while `PX` takes milliseconds
(`PX 100` = 100 ms); a third argument that is neither EX nor PX, a
missing value, a missing duration, and a non-numeric duration are all
errors; and every command-parse error is reported to the client as an
Error frame with the connection remaining usable (the reply loop is
modelled from the spec, `handleCommand`).  Byte strings: `SET` =
[83,69,84], `ex` = [101,120], `PX` = [80,88], `FOO` = [70,79,79],
`10` = [49,48], `100` = [49,48,48], `ab` = [97,98]. -/
theorem C9_set_argument_parsing (k v : Buf) (hk : validUtf8 k = true)
    (hv : validUtf8 v = true) :
    Command.from_frame (.Array [.Bulk [83, 69, 84], .Bulk k, .Bulk v])
        = .ok (.set ⟨k, v, none⟩) ∧
    Command.from_frame (.Array [.Bulk [83, 69, 84], .Bulk k, .Bulk v,
        .Bulk [69, 88], .Bulk [49, 48]]) = .ok (.set ⟨k, v, some 10000⟩) ∧
    Command.from_frame (.Array [.Bulk [83, 69, 84], .Bulk k, .Bulk v,
        .Bulk [101, 120], .Bulk [49, 48]]) = .ok (.set ⟨k, v, some 10000⟩) ∧
    Command.from_frame (.Array [.Bulk [83, 69, 84], .Bulk k, .Bulk v,
        .Bulk [80, 88], .Bulk [49, 48, 48]]) = .ok (.set ⟨k, v, some 100⟩) ∧
    (∃ e, Command.from_frame (.Array [.Bulk [83, 69, 84], .Bulk k, .Bulk v,
        .Bulk [70, 79, 79], .Bulk [49, 48]]) = .error e) ∧
    (∃ e, Command.from_frame (.Array [.Bulk [83, 69, 84], .Bulk k]) = .error e) ∧
    (∃ e, Command.from_frame (.Array [.Bulk [83, 69, 84], .Bulk k, .Bulk v,
        .Bulk [69, 88]]) = .error e) ∧
    (∃ e, Command.from_frame (.Array [.Bulk [83, 69, 84], .Bulk k, .Bulk v,
        .Bulk [69, 88], .Bulk [97, 98]]) = .error e) ∧
    (∀ (f : Frame) (s : State) (now : Nat), (Command.from_frame f).isOk = false →
      (handleCommand f s now).1.isError = true ∧ (handleCommand f s now).2.2 = true) := by
  have h1 : validUtf8 [83, 69, 84] = true := by decide
  have h2 : toLowerAscii [83, 69, 84] = [115, 101, 116] := by decide
  have h3 : validUtf8 [69, 88] = true := by decide
  have h4 : toUpperAscii [69, 88] = [69, 88] := by decide
  have h5 : validUtf8 [49, 48] = true := by decide
  have h6 : parseI64 [49, 48] = some 10 := by decide
  have h7 : validUtf8 [101, 120] = true := by decide
  have h8 : toUpperAscii [101, 120] = [69, 88] := by decide
  have h9 : validUtf8 [80, 88] = true := by decide
  have h10 : toUpperAscii [80, 88] = [80, 88] := by decide
  have h11 : validUtf8 [49, 48, 48] = true := by decide
  have h12 : parseI64 [49, 48, 48] = some 100 := by decide
  have h13 : validUtf8 [70, 79, 79] = true := by decide
  have h14 : toUpperAscii [70, 79, 79] = [70, 79, 79] := by decide
  have h15 : validUtf8 [97, 98] = true := by decide
  have h16 : parseI64 [97, 98] = none := by decide
  refine ⟨?_, ?_, ?_, ?_, ?_, ?_, ?_, ?_, ?_⟩
  · simp [Command.from_frame, Parse.new, Parse.next_string, Parse.next, Set.from_parse,
      Parse.next_int, Parse.finish, hk, hv, h1, h2]
  · simp [Command.from_frame, Parse.new, Parse.next_string, Parse.next, Set.from_parse,
      Parse.next_int, Parse.finish, hk, hv, h1, h2, h3, h4, h5, h6]
  · simp [Command.from_frame, Parse.new, Parse.next_string, Parse.next, Set.from_parse,
      Parse.next_int, Parse.finish, hk, hv, h1, h2, h7, h8, h5, h6]
  · simp [Command.from_frame, Parse.new, Parse.next_string, Parse.next, Set.from_parse,
      Parse.next_int, Parse.finish, hk, hv, h1, h2, h9, h10, h11, h12]
  · simp [Command.from_frame, Parse.new, Parse.next_string, Parse.next, Set.from_parse,
      Parse.next_int, Parse.finish, hk, hv, h1, h2, h13, h14]
  · simp [Command.from_frame, Parse.new, Parse.next_string, Parse.next, Set.from_parse,
      Parse.next_int, Parse.finish, hk, h1, h2]
  · simp [Command.from_frame, Parse.new, Parse.next_string, Parse.next, Set.from_parse,
      Parse.next_int, Parse.finish, hk, hv, h1, h2, h3, h4]
  · simp [Command.from_frame, Parse.new, Parse.next_string, Parse.next, Set.from_parse,
      Parse.next_int, Parse.finish, hk, hv, h1, h2, h3, h4, h15, h16]
  · intro f s now hf
    unfold handleCommand
    cases hc : Command.from_frame f with
    | error e => simp [Frame.isError]
    | ok c =>
      rw [hc] at hf
      simp [Except.isOk, Except.toBool] at hf

/-- C9, witness at `k = "k"`, `v = "v"`. -/
theorem C9_set_argument_parsing_witness :
    Command.from_frame (.Array [.Bulk [83, 69, 84], .Bulk [107], .Bulk [118]])
        = .ok (.set ⟨[107], [118], none⟩) ∧
    Command.from_frame (.Array [.Bulk [83, 69, 84], .Bulk [107], .Bulk [118],
        .Bulk [69, 88], .Bulk [49, 48]]) = .ok (.set ⟨[107], [118], some 10000⟩) ∧
    Command.from_frame (.Array [.Bulk [83, 69, 84], .Bulk [107], .Bulk [118],
        .Bulk [101, 120], .Bulk [49, 48]]) = .ok (.set ⟨[107], [118], some 10000⟩) ∧
    Command.from_frame (.Array [.Bulk [83, 69, 84], .Bulk [107], .Bulk [118],
        .Bulk [80, 88], .Bulk [49, 48, 48]]) = .ok (.set ⟨[107], [118], some 100⟩) ∧
    (∃ e, Command.from_frame (.Array [.Bulk [83, 69, 84], .Bulk [107], .Bulk [118],
        .Bulk [70, 79, 79], .Bulk [49, 48]]) = .error e) ∧
    (∃ e, Command.from_frame (.Array [.Bulk [83, 69, 84], .Bulk [107]]) = .error e) ∧
    (∃ e, Command.from_frame (.Array [.Bulk [83, 69, 84], .Bulk [107], .Bulk [118],
        .Bulk [69, 88]]) = .error e) ∧
    (∃ e, Command.from_frame (.Array [.Bulk [83, 69, 84], .Bulk [107], .Bulk [118],
        .Bulk [69, 88], .Bulk [97, 98]]) = .error e) ∧
    (∀ (f : Frame) (s : State) (now : Nat), (Command.from_frame f).isOk = false →
      (handleCommand f s now).1.isError = true ∧ (handleCommand f s now).2.2 = true) :=
  C9_set_argument_parsing [107] [118] (by decide) (by decide)

/-- C6: the claim (and spec §4.1) says serializing an `Array` frame is
supported, producing `*<count>\r\n` followed by the serialized elements.
In the source the `Frame::Array` arm of `serialize` falls into
`_ => panic!("Not implemented")` (marked `TODO`): serializing even the
empty array panics. -/
theorem C6_serialize_array_panics : Frame.serialize (.Array []) = none := rfl

end MyRedis
